import Mathlib

/-
Shallow embedding of
`openfermioncirq/variational/ansatzes/swap_network_trotter_hubbard.py`.

Python integers are modelled by `ℤ`, Python floats by `ℝ`, and the
`Optional[int]` results of the neighbor helpers by `Option ℤ`.
-/

namespace SwapNetworkTrotterHubbard

/-- Embedding of `_right_neighbor(site, x_dimension, y_dimension, periodic)`.
The `y_dimension` argument is unused in the source as well. -/
def _right_neighbor (site x_dimension y_dimension : ℤ) (periodic : Bool) :
    Option ℤ :=
  if x_dimension = 1 then none
  else if (site + 1) % x_dimension = 0 then
    if periodic then some (site + 1 - x_dimension) else none
  else some (site + 1)

/-- Embedding of `_bottom_neighbor(site, x_dimension, y_dimension, periodic)`. -/
def _bottom_neighbor (site x_dimension y_dimension : ℤ) (periodic : Bool) :
    Option ℤ :=
  if y_dimension = 1 then none
  else if site + x_dimension + 1 > x_dimension * y_dimension then
    if periodic then some (site + x_dimension - x_dimension * y_dimension)
    else none
  else some (site + x_dimension)

/-- Embedding of `_is_horizontal_edge(p, q, x_dim, y_dim, periodic)`.
The source folds `p` and `q` by `n_sites` when both are `≥ n_sites`; here the
fold is inlined into the two branches of that test.  `q == _right_neighbor(p,…)`
in Python compares an `int` with an `Optional[int]` (`None` compares unequal),
which is `_right_neighbor … = some q`. -/
def _is_horizontal_edge (p q x_dim y_dim : ℤ) (periodic : Bool) : Bool :=
  if (p < x_dim * y_dim ∧ x_dim * y_dim ≤ q)
      ∨ (q < x_dim * y_dim ∧ x_dim * y_dim ≤ p) then false
  else if x_dim * y_dim ≤ p ∧ x_dim * y_dim ≤ q then
    decide (_right_neighbor (p - x_dim * y_dim) x_dim y_dim periodic
        = some (q - x_dim * y_dim))
      || decide (_right_neighbor (q - x_dim * y_dim) x_dim y_dim periodic
        = some (p - x_dim * y_dim))
  else
    decide (_right_neighbor p x_dim y_dim periodic = some q)
      || decide (_right_neighbor q x_dim y_dim periodic = some p)

/-- Embedding of `_is_vertical_edge(p, q, x_dim, y_dim, periodic)`. -/
def _is_vertical_edge (p q x_dim y_dim : ℤ) (periodic : Bool) : Bool :=
  if (p < x_dim * y_dim ∧ x_dim * y_dim ≤ q)
      ∨ (q < x_dim * y_dim ∧ x_dim * y_dim ≤ p) then false
  else if x_dim * y_dim ≤ p ∧ x_dim * y_dim ≤ q then
    decide (_bottom_neighbor (p - x_dim * y_dim) x_dim y_dim periodic
        = some (q - x_dim * y_dim))
      || decide (_bottom_neighbor (q - x_dim * y_dim) x_dim y_dim periodic
        = some (p - x_dim * y_dim))
  else
    decide (_bottom_neighbor p x_dim y_dim periodic = some q)
      || decide (_bottom_neighbor q x_dim y_dim periodic = some p)

/-- Embedding of `_are_same_site_opposite_spin(p, q, n_sites)`. -/
def _are_same_site_opposite_spin (p q n_sites : ℤ) : Bool :=
  decide (|p - q| = n_sites)

/-- If `_right_neighbor` returns a site, then `x_dimension ≠ 1` and the result
is either `site + 1` or the wrapped `site + 1 - x_dimension`. -/
lemma right_neighbor_eq_some {site x y r : ℤ} {periodic : Bool}
    (h : _right_neighbor site x y periodic = some r) :
    x ≠ 1 ∧ (r = site + 1 ∨ r = site + 1 - x) := by
  unfold _right_neighbor at h
  split at h
  · exact absurd h (by simp)
  · split at h
    · split at h
      · exact ⟨by assumption, Or.inr (Option.some_injective ℤ h).symm⟩
      · exact absurd h (by simp)
    · exact ⟨by assumption, Or.inl (Option.some_injective ℤ h).symm⟩

/-- If `_bottom_neighbor` returns a site, then `y_dimension ≠ 1` and the result
is either `site + x` or the wrapped `site + x - x*y`. -/
lemma bottom_neighbor_eq_some {site x y b : ℤ} {periodic : Bool}
    (h : _bottom_neighbor site x y periodic = some b) :
    y ≠ 1 ∧ (b = site + x ∨ b = site + x - x * y) := by
  unfold _bottom_neighbor at h
  split at h
  · exact absurd h (by simp)
  · split at h
    · split at h
      · exact ⟨by assumption, Or.inr (Option.some_injective ℤ h).symm⟩
      · exact absurd h (by simp)
    · exact ⟨by assumption, Or.inl (Option.some_injective ℤ h).symm⟩

/-- A pair of sites cannot be simultaneously a right-neighbor pair and a
bottom-neighbor pair (in either orientation). -/
lemma not_right_and_bottom {x y a b : ℤ} {periodic : Bool}
    (hx : 1 ≤ x) (hy : 1 ≤ y)
    (hH : _right_neighbor a x y periodic = some b
        ∨ _right_neighbor b x y periodic = some a)
    (hV : _bottom_neighbor a x y periodic = some b
        ∨ _bottom_neighbor b x y periodic = some a) : False := by
  rcases hH with h | h <;> rcases hV with v | v <;>
    · obtain ⟨hx1, hr⟩ := right_neighbor_eq_some h
      obtain ⟨hy1, hb⟩ := bottom_neighbor_eq_some v
      have hxy : 2 * x ≤ x * y := by
        have h0x : (0 : ℤ) ≤ x := by omega
        have := mul_le_mul_of_nonneg_left (show (2 : ℤ) ≤ y by omega) h0x
        linarith
      generalize x * y = n at hb hxy
      rcases hr with hr | hr <;> rcases hb with hb | hb <;> omega

/-- A same-site-opposite-spin pair always has one index in each spin sector. -/
lemma sector_split {p q n : ℤ} (hn : 1 ≤ n) (hp0 : 0 ≤ p) (hp : p < 2 * n)
    (hq0 : 0 ≤ q) (hq : q < 2 * n) (hS : |p - q| = n) :
    (p < n ∧ n ≤ q) ∨ (q < n ∧ n ≤ p) := by
  rw [abs_eq (by omega : (0 : ℤ) ≤ n)] at hS
  omega

/-- C1: for any grid with `x_dim ≥ 1`, `y_dim ≥ 1` and any pair of distinct
qubit indices `p ≠ q` in `[0, 2·x_dim·y_dim)`, at most one of
`_is_horizontal_edge`, `_is_vertical_edge` and `_are_same_site_opposite_spin`
holds; in particular a same-site-opposite-spin pair satisfies neither edge
predicate. -/
theorem edge_predicates_mutually_exclusive (x y p q : ℤ) (periodic : Bool)
    (hx : 1 ≤ x) (hy : 1 ≤ y) (hp0 : 0 ≤ p) (hp : p < 2 * (x * y))
    (hq0 : 0 ≤ q) (hq : q < 2 * (x * y)) (hpq : p ≠ q) :
    ¬(_is_horizontal_edge p q x y periodic = true
        ∧ _is_vertical_edge p q x y periodic = true)
    ∧ (_are_same_site_opposite_spin p q (x * y) = true
        → _is_horizontal_edge p q x y periodic = false
          ∧ _is_vertical_edge p q x y periodic = false) := by
  constructor
  · rintro ⟨hH, hV⟩
    unfold _is_horizontal_edge at hH
    unfold _is_vertical_edge at hV
    split at hH
    · simp at hH
    · split at hV
      · simp at hV
      · split at hH <;> split at hV
        · rw [Bool.or_eq_true, decide_eq_true_iff, decide_eq_true_iff] at hH hV
          exact not_right_and_bottom hx hy hH hV
        · tauto
        · tauto
        · rw [Bool.or_eq_true, decide_eq_true_iff, decide_eq_true_iff] at hH hV
          exact not_right_and_bottom hx hy hH hV
  · intro hS
    unfold _are_same_site_opposite_spin at hS
    rw [decide_eq_true_iff] at hS
    have hn : 1 ≤ x * y := by
      have h := mul_le_mul hx hy zero_le_one (by omega : (0 : ℤ) ≤ x)
      linarith
    have hsec := sector_split hn hp0 hp hq0 hq hS
    constructor
    · unfold _is_horizontal_edge
      rw [if_pos hsec]
    · unfold _is_vertical_edge
      rw [if_pos hsec]

/-- Witness for `edge_predicates_mutually_exclusive` at
`x = 2, y = 2, p = 0, q = 1`. -/
theorem edge_predicates_mutually_exclusive_witness :
    ¬(_is_horizontal_edge 0 1 2 2 true = true
        ∧ _is_vertical_edge 0 1 2 2 true = true)
    ∧ (_are_same_site_opposite_spin 0 1 (2 * 2) = true
        → _is_horizontal_edge 0 1 2 2 true = false
          ∧ _is_vertical_edge 0 1 2 2 true = false) :=
  edge_predicates_mutually_exclusive 2 2 0 1 true (by decide) (by decide)
    (by decide) (by decide) (by decide) (by decide) (by decide)

/-- C10: each of the three edge predicates is symmetric in its first two
arguments. -/
theorem edge_predicates_symmetric (p q x y n : ℤ) (periodic : Bool) :
    _is_horizontal_edge p q x y periodic = _is_horizontal_edge q p x y periodic
    ∧ _is_vertical_edge p q x y periodic = _is_vertical_edge q p x y periodic
    ∧ _are_same_site_opposite_spin p q n = _are_same_site_opposite_spin q p n := by
  refine ⟨?_, ?_, ?_⟩
  · by_cases h1 : (p < x * y ∧ x * y ≤ q) ∨ (q < x * y ∧ x * y ≤ p)
    · unfold _is_horizontal_edge
      rw [if_pos h1, if_pos (Or.symm h1)]
    · unfold _is_horizontal_edge
      rw [if_neg h1, if_neg (fun h => h1 (Or.symm h))]
      by_cases h2 : x * y ≤ p ∧ x * y ≤ q
      · rw [if_pos h2, if_pos (And.symm h2)]
        exact Bool.or_comm _ _
      · rw [if_neg h2, if_neg (fun h => h2 (And.symm h))]
        exact Bool.or_comm _ _
  · by_cases h1 : (p < x * y ∧ x * y ≤ q) ∨ (q < x * y ∧ x * y ≤ p)
    · unfold _is_vertical_edge
      rw [if_pos h1, if_pos (Or.symm h1)]
    · unfold _is_vertical_edge
      rw [if_neg h1, if_neg (fun h => h1 (Or.symm h))]
      by_cases h2 : x * y ≤ p ∧ x * y ≤ q
      · rw [if_pos h2, if_pos (And.symm h2)]
        exact Bool.or_comm _ _
      · rw [if_neg h2, if_neg (fun h => h2 (And.symm h))]
        exact Bool.or_comm _ _
  · unfold _are_same_site_opposite_spin
    rw [abs_sub_comm]

/-- `(s+1) % x = 0` exactly at the right edge of a row, i.e. when
`s % x = x - 1`. -/
lemma succ_emod_eq_zero_iff {s x : ℤ} (hx : 0 < x) :
    (s + 1) % x = 0 ↔ s % x = x - 1 := by
  have h0 : 0 ≤ s % x := Int.emod_nonneg s hx.ne'
  have h1 : s % x < x := Int.emod_lt_of_pos s hx
  have key : (s + 1) % x = (s % x + 1) % x := by
    conv_lhs => rw [show s + 1 = s % x + 1 + x * (s / x) from by
      have h := Int.ediv_add_emod s x
      linarith]
    rw [Int.add_mul_emod_self_left]
  rw [key]
  constructor
  · intro h
    by_contra hne
    rw [Int.emod_eq_of_lt (by omega) (by omega)] at h
    omega
  · intro h
    rw [h, show x - 1 + 1 = x from by ring, Int.emod_self]

/-- C2 counterexample: with `periodic = true` on a 1×1 grid (so `x_dim ≥ 1`,
`y_dim ≥ 1` and site `0` is in range) both neighbor functions still return
`none`, contradicting the claim that they never report "no neighbor" in the
periodic case. -/
theorem neighbor_periodic_counterexample :
    _right_neighbor 0 1 1 true = none ∧ _bottom_neighbor 0 1 1 true = none :=
  ⟨by decide, by decide⟩

/-- C2 (amended): for a site `s ∈ [0, x·y)` on a grid with `x, y ≥ 1`:
with `periodic = true`, `_right_neighbor` returns a valid site in `[0, x·y)`
whenever `x ≥ 2` but returns `none` when `x = 1`, and `_bottom_neighbor`
returns a valid site whenever `y ≥ 2` but `none` when `y = 1`; with
`periodic = false`, `_right_neighbor` returns `none` exactly at right-edge
sites (`s % x = x - 1`) and `_bottom_neighbor` returns `none` exactly at
bottom-row sites (`x·y ≤ s + x`). -/
theorem neighbors_range_spec (x y s : ℤ) (hx : 1 ≤ x) (hy : 1 ≤ y)
    (hs0 : 0 ≤ s) (hs : s < x * y) :
    (2 ≤ x → ∃ r, _right_neighbor s x y true = some r ∧ 0 ≤ r ∧ r < x * y)
    ∧ (x = 1 → _right_neighbor s x y true = none)
    ∧ (2 ≤ y → ∃ b, _bottom_neighbor s x y true = some b ∧ 0 ≤ b ∧ b < x * y)
    ∧ (y = 1 → _bottom_neighbor s x y true = none)
    ∧ (_right_neighbor s x y false = none ↔ s % x = x - 1)
    ∧ (_bottom_neighbor s x y false = none ↔ x * y ≤ s + x) := by
  refine ⟨?_, ?_, ?_, ?_, ?_, ?_⟩
  · intro hx2
    unfold _right_neighbor
    rw [if_neg (by omega : ¬x = 1)]
    by_cases hmod : (s + 1) % x = 0
    · rw [if_pos hmod]
      refine ⟨s + 1 - x, by simp, ?_, ?_⟩
      · have hsx : s % x = x - 1 := (succ_emod_eq_zero_iff (by omega)).mp hmod
        have hd0 : 0 ≤ s / x := Int.ediv_nonneg hs0 (by omega)
        have hde := Int.ediv_add_emod s x
        have hxm : 0 ≤ x * (s / x) := mul_nonneg (by omega) hd0
        generalize x * (s / x) = k at hde hxm
        generalize s % x = t at hsx hde
        omega
      · generalize x * y = n at hs ⊢
        omega
    · rw [if_neg hmod]
      refine ⟨s + 1, rfl, by omega, ?_⟩
      have hmul : x * y % x = 0 := Int.mul_emod_right x y
      by_contra hlt
      have heq : s + 1 = x * y := by
        generalize x * y = n at hs hlt
        omega
      rw [← heq] at hmul
      exact hmod hmul
  · intro h
    unfold _right_neighbor
    rw [if_pos h]
  · intro hy2
    unfold _bottom_neighbor
    rw [if_neg (by omega : ¬y = 1)]
    by_cases hcond : s + x + 1 > x * y
    · rw [if_pos hcond]
      refine ⟨s + x - x * y, by simp, ?_, ?_⟩
      · generalize x * y = n at hcond ⊢
        omega
      · have hxn : x * 1 ≤ x * y := mul_le_mul_of_nonneg_left hy (by omega)
        rw [mul_one] at hxn
        generalize x * y = n at hcond hs hxn ⊢
        omega
    · rw [if_neg hcond]
      refine ⟨s + x, rfl, by omega, ?_⟩
      generalize x * y = n at hcond ⊢
      omega
  · intro h
    unfold _bottom_neighbor
    rw [if_pos h]
  · unfold _right_neighbor
    by_cases hx1 : x = 1
    · rw [if_pos hx1]
      subst hx1
      simp [Int.emod_one]
    · rw [if_neg hx1]
      by_cases hmod : (s + 1) % x = 0
      · rw [if_pos hmod]
        simp [(succ_emod_eq_zero_iff (by omega)).mp hmod]
      · rw [if_neg hmod]
        simp only [reduceCtorEq, false_iff]
        exact fun h => hmod ((succ_emod_eq_zero_iff (by omega)).mpr h)
  · unfold _bottom_neighbor
    by_cases hy1 : y = 1
    · rw [if_pos hy1]
      subst hy1
      simp only [mul_one, true_iff]
      omega
    · rw [if_neg hy1]
      by_cases hcond : s + x + 1 > x * y
      · rw [if_pos hcond]
        simp only [Bool.false_eq_true, if_false, true_iff]
        omega
      · rw [if_neg hcond]
        simp only [reduceCtorEq, false_iff]
        omega

/-- Witness for `neighbors_range_spec` at `x = 2, y = 2, s = 0`. -/
theorem neighbors_range_spec_witness :
    ∃ r, _right_neighbor 0 2 2 true = some r ∧ 0 ≤ r ∧ r < 2 * 2 :=
  (neighbors_range_spec 2 2 0 (by decide) (by decide) (by decide)
    (by decide)).1 (by decide)

/-- Embedding of `_canonicalize_exponent(exponent, period)`.  The Python body
performs, in order: `exponent += period / 2`, `exponent %= period`,
`exponent -= period / 2`, and finally `if exponent <= -period / 2:
exponent += period`.  The float modulo `a % p` is `a - p * ⌊a / p⌋`; the
sequential updates are inlined below.  The definition is generic over an
ordered field with a floor so that it stays executable (e.g. over `ℚ`); the
theorems instantiate it at `ℝ`. -/
def _canonicalize_exponent {α : Type} [LinearOrderedField α] [FloorRing α]
    (exponent : α) (period : ℤ) : α :=
  if exponent + (period : α) / 2
      - (period : α) * ⌊(exponent + (period : α) / 2) / (period : α)⌋
      - (period : α) / 2 ≤ -(period : α) / 2 then
    exponent + (period : α) / 2
      - (period : α) * ⌊(exponent + (period : α) / 2) / (period : α)⌋
      - (period : α) / 2 + (period : α)
  else
    exponent + (period : α) / 2
      - (period : α) * ⌊(exponent + (period : α) / 2) / (period : α)⌋
      - (period : α) / 2

/-- The float-modulo step `a - P * ⌊a / P⌋` lands in `[0, P)` for `P > 0`. -/
lemma real_emod_bounds (a P : ℝ) (hP : 0 < P) :
    0 ≤ a - P * ⌊a / P⌋ ∧ a - P * ⌊a / P⌋ < P := by
  have h2 : P * (a / P) = a := by field_simp
  have h1 : a - P * ⌊a / P⌋ = P * Int.fract (a / P) := by
    rw [Int.fract, mul_sub, h2]
  constructor
  · rw [h1]
    exact mul_nonneg hP.le (Int.fract_nonneg _)
  · rw [h1]
    calc P * Int.fract (a / P) < P * 1 :=
          mul_lt_mul_of_pos_left (Int.fract_lt_one _) hP
      _ = P := mul_one P

/-- C3: for every real exponent and every positive period `p`, the
canonicalized exponent lies in `(-p/2, p/2]`; concretely
`_canonicalize_exponent 5 4 = 1` and `_canonicalize_exponent (-2) 4 = 2`
(the boundary `-p/2` snaps to `+p/2`). -/
theorem canonicalize_exponent_range (e : ℝ) (p : ℤ) (hp : 0 < p) :
    (-(p : ℝ) / 2 < _canonicalize_exponent e p
      ∧ _canonicalize_exponent e p ≤ (p : ℝ) / 2)
    ∧ _canonicalize_exponent (5 : ℝ) 4 = 1
    ∧ _canonicalize_exponent (-2 : ℝ) 4 = 2 := by
  refine ⟨?_, ?_, ?_⟩
  · have hP : (0 : ℝ) < (p : ℝ) := by exact_mod_cast hp
    obtain ⟨hlo, hhi⟩ := real_emod_bounds (e + (p : ℝ) / 2) (p : ℝ) hP
    unfold _canonicalize_exponent
    split_ifs with hcond
    · constructor <;> linarith
    · constructor <;> linarith
  · have hcast : ((4 : ℤ) : ℝ) = 4 := by norm_num
    unfold _canonicalize_exponent
    rw [hcast]
    have hfl : ⌊((5 : ℝ) + 4 / 2) / 4⌋ = 1 := by
      rw [Int.floor_eq_iff]
      norm_num
    rw [hfl]
    norm_num
  · have hcast : ((4 : ℤ) : ℝ) = 4 := by norm_num
    unfold _canonicalize_exponent
    rw [hcast]
    have hfl : ⌊((-2 : ℝ) + 4 / 2) / 4⌋ = 0 := by
      rw [Int.floor_eq_iff]
      norm_num
    rw [hfl]
    norm_num

/-- Witness for `canonicalize_exponent_range` at `e = 5, p = 4`. -/
theorem canonicalize_exponent_range_witness :
    _canonicalize_exponent (5 : ℝ) 4 = 1 :=
  (canonicalize_exponent_range 5 4 (by decide)).2.1

/-- C4: canonicalization is invariant under shifting the exponent by any
whole number of periods. -/
theorem canonicalize_exponent_periodic (e : ℝ) (p k : ℤ) (hp : 0 < p) :
    _canonicalize_exponent (e + (k : ℝ) * (p : ℝ)) p
      = _canonicalize_exponent e p := by
  have hP : ((p : ℝ)) ≠ 0 := by
    exact_mod_cast hp.ne'
  have hdiv : (e + (k : ℝ) * (p : ℝ) + (p : ℝ) / 2) / (p : ℝ)
      = (e + (p : ℝ) / 2) / (p : ℝ) + (k : ℝ) := by
    field_simp
    ring
  unfold _canonicalize_exponent
  rw [hdiv, Int.floor_add_int]
  push_cast
  ring_nf

/-- Witness for `canonicalize_exponent_periodic` at `e = 5, p = 4, k = 1`. -/
theorem canonicalize_exponent_periodic_witness :
    _canonicalize_exponent ((5 : ℝ) + ((1 : ℤ) : ℝ) * ((4 : ℤ) : ℝ)) 4
      = _canonicalize_exponent (5 : ℝ) 4 :=
  canonicalize_exponent_periodic 5 4 1 (by decide)

/-- Helper for `params`: the parameter stream produced by the first `n`
iterations of the loop in `SwapNetworkTrotterHubbardAnsatz.params`. -/
def params_from (x_dim y_dim : ℤ) (n : ℕ) : List (String × ℕ) :=
  (List.range n).flatMap fun i =>
    (if 1 < x_dim then [("Th", i)] else [])
      ++ (if 1 < y_dim then [("Tv", i)] else [])
      ++ [("V", i)]

/-- Embedding of `SwapNetworkTrotterHubbardAnsatz.params`: for each iteration
`i` the generator yields `Th(i)` if `x_dim > 1`, `Tv(i)` if `y_dim > 1`, and
always `V(i)`.  A `LetterWithSubscripts(letter, i)` is modelled as the pair
`(letter, i)`; `range` of a non-positive count is empty, hence `toNat`. -/
def params (x_dim y_dim iterations : ℤ) : List (String × ℕ) :=
  params_from x_dim y_dim iterations.toNat

/-- Embedding of `SwapNetworkTrotterHubbardAnsatz.param_bounds`:
`(-s, s)` with `s = 1` for letter `V` and `s = 2` otherwise. -/
def param_bounds (x_dim y_dim iterations : ℤ) : List (ℚ × ℚ) :=
  (params x_dim y_dim iterations).map fun param =>
    ((if param.1 = "V" then -(1 : ℚ) else -2),
      (if param.1 = "V" then (1 : ℚ) else 2))

/-- Membership in one loop iteration's block of parameters. -/
lemma mem_params_block {x y : ℤ} {s : String} {i j : ℕ} :
    (s, i) ∈ (if 1 < x then [("Th", j)] else [])
        ++ (if 1 < y then [("Tv", j)] else []) ++ [("V", j)]
      ↔ i = j ∧ (s = "Th" ∧ 1 < x ∨ s = "Tv" ∧ 1 < y ∨ s = "V") := by
  by_cases h1 : 1 < x <;> by_cases h2 : 1 < y <;>
    simp [h1, h2, Prod.mk.injEq] <;> tauto

/-- Membership characterization of the parameter stream. -/
lemma mem_params_from {x y : ℤ} {n : ℕ} {s : String} {i : ℕ} :
    (s, i) ∈ params_from x y n
      ↔ i < n ∧ (s = "Th" ∧ 1 < x ∨ s = "Tv" ∧ 1 < y ∨ s = "V") := by
  unfold params_from
  rw [List.mem_flatMap]
  constructor
  · rintro ⟨j, hj, hmem⟩
    rw [List.mem_range] at hj
    obtain ⟨rfl, hrest⟩ := mem_params_block.mp hmem
    exact ⟨hj, hrest⟩
  · rintro ⟨hin, hrest⟩
    exact ⟨i, List.mem_range.mpr hin, mem_params_block.mpr ⟨rfl, hrest⟩⟩

/-- Each iteration's block of parameters has no duplicates. -/
lemma params_block_nodup (x y : ℤ) (j : ℕ) :
    ((if 1 < x then [("Th", j)] else [])
      ++ (if 1 < y then [("Tv", j)] else []) ++ [("V", j)]).Nodup := by
  by_cases h1 : 1 < x <;> by_cases h2 : 1 < y <;> simp [h1, h2]

/-- The parameter stream never repeats a `(letter, subscript)` pair. -/
lemma params_from_nodup (x y : ℤ) (n : ℕ) : (params_from x y n).Nodup := by
  induction n with
  | zero => exact List.nodup_nil
  | succ n ih =>
    unfold params_from at ih ⊢
    rw [List.range_succ, List.flatMap_append, List.flatMap_cons,
      List.flatMap_nil, List.append_nil, List.nodup_append]
    refine ⟨ih, params_block_nodup x y n, ?_⟩
    rintro ⟨s, i⟩ hmem hmem'
    have h1 := mem_params_from.mp hmem
    have h2 := (mem_params_block.mp hmem').1
    omega

/-- C5: the parameter stream contains `(letter, i)` for `i < iterations`
exactly once, with `Th` present iff `x_dim > 1`, `Tv` present iff
`y_dim > 1`, and `V` always; concretely for `x_dim = 2, y_dim = 1,
iterations = 1` the stream is exactly `[Th(0), V(0)]`. -/
theorem params_spec (x y r : ℤ) :
    (params x y r).Nodup
    ∧ (∀ (s : String) (i : ℕ), (s, i) ∈ params x y r
        ↔ i < r.toNat ∧ (s = "Th" ∧ 1 < x ∨ s = "Tv" ∧ 1 < y ∨ s = "V"))
    ∧ params 2 1 1 = [("Th", 0), ("V", 0)] := by
  refine ⟨params_from_nodup x y r.toNat, ?_, ?_⟩
  · intro s i
    exact mem_params_from
  · decide

/-- The length of one loop iteration's block of parameters. -/
lemma params_block_length (x y : ℤ) (j : ℕ) :
    ((if 1 < x then [("Th", j)] else [])
      ++ (if 1 < y then [("Tv", j)] else []) ++ [("V", j)]).length
    = (if 1 < x then 1 else 0) + (if 1 < y then 1 else 0) + 1 := by
  by_cases h1 : 1 < x <;> by_cases h2 : 1 < y <;> simp [h1, h2]

/-- The length of the parameter stream. -/
lemma params_from_length (x y : ℤ) (n : ℕ) :
    (params_from x y n).length
      = n * ((if 1 < x then 1 else 0) + (if 1 < y then 1 else 0) + 1) := by
  induction n with
  | zero => simp [params_from]
  | succ n ih =>
    unfold params_from at ih ⊢
    rw [List.range_succ, List.flatMap_append, List.flatMap_cons,
      List.flatMap_nil, List.append_nil, List.length_append, ih,
      params_block_length]
    ring

/-- C6: `param_bounds` is aligned positionally with `params`: it has the same
length — namely `iterations · (1[x_dim>1] + 1[y_dim>1] + 1)` — and the entry
at each position is `(-1, 1)` when that position's parameter letter is `V`
and `(-2, 2)` otherwise (letters `Th`, `Tv`). -/
theorem param_bounds_spec (x y r : ℤ) :
    (param_bounds x y r).length = (params x y r).length
    ∧ (params x y r).length
        = r.toNat * ((if 1 < x then 1 else 0) + (if 1 < y then 1 else 0) + 1)
    ∧ ∀ (j : ℕ) (pr : String × ℕ), (params x y r)[j]? = some pr
        → (param_bounds x y r)[j]?
          = some (if pr.1 = "V" then ((-1 : ℚ), 1) else (-2, 2)) := by
  refine ⟨?_, params_from_length x y r.toNat, ?_⟩
  · unfold param_bounds
    exact List.length_map _ _
  · intro j pr hj
    unfold param_bounds
    rw [List.getElem?_map, hj, Option.map_some']
    by_cases hV : pr.1 = "V" <;> simp [hV]

/-- Witness for `param_bounds_spec`: position 0 of the `x_dim = 2, y_dim = 1,
iterations = 1` ansatz has letter `Th` and bounds `(-2, 2)`. -/
theorem param_bounds_spec_witness :
    (param_bounds 2 1 1)[0]?
      = some (if (("Th", 0) : String × ℕ).1 = "V" then ((-1 : ℚ), 1)
          else (-2, 2)) :=
  (param_bounds_spec 2 1 1).2.2 0 ("Th", 0) (by decide)

/-- The state stored by `SwapNetworkTrotterHubbardAnsatz.__init__`.  Physical
couplings are generic over an ordered field (instantiated at `ℝ` or `ℚ` in
the theorems), dimensions and the iteration count are integers. -/
structure SwapNetworkTrotterHubbardAnsatz (α : Type) where
  x_dim : ℤ
  y_dim : ℤ
  tunneling : α
  coulomb : α
  periodic : Bool
  iterations : ℤ
  adiabatic_evolution_time : α

/-- Embedding of `SwapNetworkTrotterHubbardAnsatz.__init__`: it stores all
arguments verbatim, defaulting `adiabatic_evolution_time` to
`0.1 * abs(coulomb) * iterations` when it is `None`.  The source performs no
validation of any argument. -/
def init {α : Type} [LinearOrderedField α] (x_dim y_dim : ℤ)
    (tunneling coulomb : α) (periodic : Bool) (iterations : ℤ)
    (adiabatic_evolution_time : Option α) :
    SwapNetworkTrotterHubbardAnsatz α :=
  ⟨x_dim, y_dim, tunneling, coulomb, periodic, iterations,
    adiabatic_evolution_time.getD (0.1 * |coulomb| * (iterations : α))⟩

/-- C8 counterexample: construction with `x_dim = 0` and `iterations = -1`
(both non-positive) succeeds and returns a fully formed ansatz — nothing in
`__init__` rejects the input. -/
theorem init_accepts_nonpositive :
    init 0 1 (1 : ℚ) 1 true (-1) (some 1)
      = ⟨0, 1, 1, 1, true, -1, 1⟩ := rfl

/-- C8 (amended): for every input with non-positive `x_dim`, `y_dim` or
`iterations`, construction still succeeds: `__init__` performs no validation
and stores the arguments verbatim, so failure is deferred to later use
rather than raised at construction. -/
theorem init_no_validation {α : Type} [LinearOrderedField α] (x y : ℤ)
    (t c : α) (per : Bool) (r : ℤ) (aet : Option α)
    (h : x ≤ 0 ∨ y ≤ 0 ∨ r ≤ 0) :
    init x y t c per r aet
      = ⟨x, y, t, c, per, r, aet.getD (0.1 * |c| * (r : α))⟩ := rfl

/-- Witness for `init_no_validation` at `x_dim = 0`. -/
theorem init_no_validation_witness :
    init 0 1 (1 : ℚ) 1 true 1 (some 1) = ⟨0, 1, 1, 1, true, 1, 1⟩ :=
  init_no_validation 0 1 (1 : ℚ) 1 true 1 (some 1) (Or.inl (by decide))

/-- Embedding of `SwapNetworkTrotterHubbardAnsatz.default_initial_params`.
`step_time = adiabatic_evolution_time / iterations` is inlined.  Two pieces
of outside context appear as parameters: `numpy.pi` is the constant `pi`
(instantiated with `Real.pi` in the theorems), and `param_scale_factors()`
— supplied by the `VariationalAnsatz` base class, which is not part of the
embedded source — is, per the spec, a per-parameter scale factor consumed
positionally, modelled as the function `scale_factors` from a parameter's
position to its scale factor. -/
def default_initial_params {α : Type} [LinearOrderedField α] [FloorRing α]
    (pi : α) (x_dim y_dim : ℤ) (tunneling coulomb : α) (iterations : ℤ)
    (adiabatic_evolution_time : α) (scale_factors : ℕ → α) : List α :=
  ((params x_dim y_dim iterations).enum).flatMap fun jp =>
    if jp.2.1 = "Th" ∨ jp.2.1 = "Tv" then
      [_canonicalize_exponent
          (-tunneling * (adiabatic_evolution_time / (iterations : α)) / pi) 4
        / scale_factors jp.1]
    else if jp.2.1 = "V" then
      [_canonicalize_exponent
          (-0.5 * coulomb * (0.5 * (2 * (jp.2.2 : α) + 1) / (iterations : α))
            * (adiabatic_evolution_time / (iterations : α)) / pi) 2
        / scale_factors jp.1]
    else []

/-- A `flatMap` whose function yields singletons is a `map`. -/
lemma flatMap_eq_map_of_singleton {β γ : Type} {l : List β} {f : β → List γ}
    {g : β → γ} (h : ∀ a ∈ l, f a = [g a]) : l.flatMap f = l.map g := by
  induction l with
  | nil => rfl
  | cons b l ih =>
    rw [List.flatMap_cons, List.map_cons, h b (by simp),
      ih fun a ha => h a (by simp [ha])]
    rfl

/-- Every parameter's letter is `Th`, `Tv` or `V`. -/
lemma params_letters {x y r : ℤ} {pr : String × ℕ} (h : pr ∈ params x y r) :
    pr.1 = "Th" ∨ pr.1 = "Tv" ∨ pr.1 = "V" := by
  obtain ⟨s, i⟩ := pr
  have := mem_params_from.mp h
  tauto

/-- C7: `default_initial_params` is aligned positionally with `params`:
every `Th`/`Tv` position holds `canonicalize(-tunneling·step_time/π, 4)`
divided by that position's scale factor, and every `V(i)` position holds
`canonicalize(-0.5·coulomb·(0.5·(2i+1)/iterations)·step_time/π, 2)` divided
by its scale factor, where `step_time = adiabatic_evolution_time/iterations`;
and an unspecified `adiabatic_evolution_time` defaults to
`0.1·|coulomb|·iterations` at construction. -/
theorem default_initial_params_spec (x y : ℤ) (t c A : ℝ) (r : ℤ)
    (hr : 1 ≤ r) (sf : ℕ → ℝ) (per : Bool) :
    (default_initial_params Real.pi x y t c r A sf).length
        = (params x y r).length
    ∧ (∀ (j i : ℕ), (params x y r)[j]? = some ("Th", i)
        → (default_initial_params Real.pi x y t c r A sf)[j]?
          = some (_canonicalize_exponent
              (-t * (A / (r : ℝ)) / Real.pi) 4 / sf j))
    ∧ (∀ (j i : ℕ), (params x y r)[j]? = some ("Tv", i)
        → (default_initial_params Real.pi x y t c r A sf)[j]?
          = some (_canonicalize_exponent
              (-t * (A / (r : ℝ)) / Real.pi) 4 / sf j))
    ∧ (∀ (j i : ℕ), (params x y r)[j]? = some ("V", i)
        → (default_initial_params Real.pi x y t c r A sf)[j]?
          = some (_canonicalize_exponent
              (-0.5 * c * (0.5 * (2 * (i : ℝ) + 1) / (r : ℝ))
                * (A / (r : ℝ)) / Real.pi) 2 / sf j))
    ∧ (init x y t c per r none).adiabatic_evolution_time
        = 0.1 * |c| * (r : ℝ) := by
  have hmap : default_initial_params Real.pi x y t c r A sf
      = (params x y r).enum.map fun jp =>
          if jp.2.1 = "Th" ∨ jp.2.1 = "Tv" then
            _canonicalize_exponent
              (-t * (A / (r : ℝ)) / Real.pi) 4 / sf jp.1
          else
            _canonicalize_exponent
              (-0.5 * c * (0.5 * (2 * (jp.2.2 : ℝ) + 1) / (r : ℝ))
                * (A / (r : ℝ)) / Real.pi) 2 / sf jp.1 := by
    unfold default_initial_params
    refine flatMap_eq_map_of_singleton ?_
    intro jp hjp
    have hmem := List.snd_mem_of_mem_enum hjp
    rcases params_letters hmem with h | h | h <;> simp [h]
  refine ⟨?_, ?_, ?_, ?_, rfl⟩
  · rw [hmap, List.length_map, List.enum_length]
  · intro j i hj
    rw [hmap, List.getElem?_map, List.getElem?_enum, hj]
    simp
  · intro j i hj
    rw [hmap, List.getElem?_map, List.getElem?_enum, hj]
    simp
  · intro j i hj
    rw [hmap, List.getElem?_map, List.getElem?_enum, hj]
    simp

/-- Witness for `default_initial_params_spec` at
`x = 2, y = 1, t = c = A = 1, r = 1`, constant scale factors. -/
theorem default_initial_params_spec_witness :
    (default_initial_params Real.pi 2 1 (1 : ℝ) 1 1 1 fun _ => 1).length
      = (params 2 1 1).length :=
  (default_initial_params_spec 2 1 1 1 1 1 (by decide) (fun _ => 1) true).1

/-- The sequence of qubit orders that `operations` hands to the external
`swap_network` primitive: in each iteration the first pass receives the
current local order, the local order is then reversed (`qubits = qubits[::-1]`)
for the second pass, and reversed again at the end of the iteration.  Gate
emission is delegated to `swap_network` and is not modelled; only the qubit
bookkeeping of `operations` is. -/
def operations_qubit_orders_from {α : Type} : ℕ → List α → List (List α)
  | 0, _ => []
  | n + 1, qubits =>
    qubits :: qubits.reverse
      :: operations_qubit_orders_from n qubits.reverse.reverse

/-- The qubit orders of `operations(qubits)` over all `iterations` loop
iterations (`range` of a non-positive count is empty, hence `toNat`). -/
def operations_qubit_orders {α : Type} (iterations : ℤ) (qubits : List α) :
    List (List α) :=
  operations_qubit_orders_from iterations.toNat qubits

/-- The local qubit order when the loop of `operations` has run `n` times. -/
def operations_final_qubit_order_from {α : Type} : ℕ → List α → List α
  | 0, qubits => qubits
  | n + 1, qubits => operations_final_qubit_order_from n qubits.reverse.reverse

/-- The local qubit order when `operations(qubits)` finishes. -/
def operations_final_qubit_order {α : Type} (iterations : ℤ)
    (qubits : List α) : List α :=
  operations_final_qubit_order_from iterations.toNat qubits

/-- Helper for C9 over the iteration count as a natural number. -/
lemma operations_qubit_orders_from_spec {α : Type} (n : ℕ) (qubits : List α) :
    operations_final_qubit_order_from n qubits = qubits
    ∧ operations_qubit_orders_from n qubits
      = (List.replicate n [qubits, qubits.reverse]).flatten := by
  induction n with
  | zero => exact ⟨rfl, rfl⟩
  | succ n ih =>
    constructor
    · rw [operations_final_qubit_order_from, List.reverse_reverse]
      exact ih.1
    · rw [operations_qubit_orders_from, List.reverse_reverse,
        List.replicate_succ, List.flatten_cons, ih.2]
      rfl

/-- C9: the qubit bookkeeping of `operations` never mutates the caller's
sequence — each double reversal restores the order — so every iteration
starts from the original order `qubits`, each iteration's two passes see
`qubits` and `qubits.reverse` respectively, and the local order after the
loop equals the original order. -/
theorem operations_qubit_order_restored {α : Type} (iterations : ℤ)
    (qubits : List α) :
    operations_final_qubit_order iterations qubits = qubits
    ∧ operations_qubit_orders iterations qubits
      = (List.replicate iterations.toNat [qubits, qubits.reverse]).flatten :=
  operations_qubit_orders_from_spec iterations.toNat qubits

end SwapNetworkTrotterHubbard
